import Mathlib

/-!
Verification of the multiplayer zone-synchronization core of the
mtg-proxy-player repository.

The definitions below are a shallow embedding of the TypeScript source:
  - the wire data model from src/types/card.ts,
  - the zone diff engine computeZoneDiff and the hydration helpers
    hydrateZone, collectZoneCardIds, createUnknownCard, shuffleArray
    from src/pages/MultiplayerGame.tsx,
  - the point-write application derived by updatePlayerStateDiff and the
    room/turn operations advanceTurn and addPlayerToTurnOrder from
    src/services/firebase.ts,
  - the prefetch deduplication step of prefetchCardsById from the
    scryfall service.

JavaScript Record values are modelled as association lists whose keys are
unique (a Record cannot hold a duplicate key); lookups go through
List.lookup.  Nullable values become Option, and the remote-store writes
issued by a firebase helper are modelled as the value the helper writes
(none meaning that no write is issued at all).
-/

namespace MtgProxy

/-- Catalog card metadata.  The TypeScript ScryfallCard type has these
required fields plus optional display-only fields (mana_cost, oracle_text,
power, toughness, colors, image_uris, card_faces) that no operation
modelled here ever reads or writes, so the optional fields are omitted. -/
structure ScryfallCard where
  id : String
  name : String
  cmc : Nat
  type_line : String
  color_identity : List String
  set : String
  set_name : String
  rarity : String
deriving DecidableEq, Repr

/-- Local (hydrated) card form, from src/types/card.ts GameCard.  The
optional counters field is omitted: none of the modelled operations
touches it. -/
structure GameCard where
  instanceId : String
  card : ScryfallCard
  tapped : Bool
  faceDown : Bool
deriving DecidableEq, Repr

/-- Compact wire card form, from src/types/card.ts FirebaseGameCard. -/
structure FirebaseGameCard where
  instanceId : String
  cardId : String
  tapped : Bool
  faceDown : Bool
deriving DecidableEq, Repr

/-- Association-list model of the Record of wire cards keyed by
instanceId. -/
abbrev WireCards := List (String × FirebaseGameCard)

/-- Wire zone form, from src/types/card.ts FirebaseZoneWire: a Record of
cards keyed by instance id plus an order array. -/
structure FirebaseZoneWire where
  cardsById : WireCards
  order : List String
deriving DecidableEq, Repr

/-- Sparse per-card field patch, the Partial FirebaseGameCard built by
computeZoneDiff: only the two mutable flags can appear. -/
structure CardUpdate where
  tapped : Option Bool
  faceDown : Option Bool
deriving DecidableEq, Repr

/-- Empty field patch (a patch object with no keys). -/
def emptyUpdate : CardUpdate := { tapped := none, faceDown := none }

/-- Zone diff structure, from the ZoneDiff type in
src/services/firebase.ts. -/
structure ZoneDiff where
  addedCards : WireCards
  removedCardIds : List String
  updatedCards : List (String × CardUpdate)
  newOrder : Option (List String)
deriving DecidableEq, Repr

/-- Field comparison step of computeZoneDiff: collect into a patch each
flag of the current card that differs from the previous card. -/
def mkCardUpdates (prevCard card : FirebaseGameCard) : CardUpdate :=
  { tapped := if prevCard.tapped != card.tapped then some card.tapped else none
    faceDown := if prevCard.faceDown != card.faceDown then some card.faceDown else none }

/-- Order comparison loop of computeZoneDiff: the order changed when the
lengths differ or some position holds a different id. -/
def ordersDiffer (prevOrder currentOrder : List String) : Bool :=
  prevOrder.length != currentOrder.length ||
    (List.range currentOrder.length).any (fun i => prevOrder[i]? != currentOrder[i]?)

/-- Per-entry body of the update loop of computeZoneDiff: an entry of the
current Record whose key is found in the previous Record contributes a
patch when at least one flag changed, and nothing otherwise. -/
def diffUpdF (prevCardsById : WireCards) (p : String × FirebaseGameCard) :
    Option (String × CardUpdate) :=
  match List.lookup p.1 prevCardsById with
  | none => none
  | some prevCard =>
    let u := mkCardUpdates prevCard p.2
    if u = emptyUpdate then none else some (p.1, u)

/-- Added cards of computeZoneDiff: entries of current whose key is absent
from the previous Record. -/
def diffAdded (prevCardsById : WireCards) (current : WireCards) : WireCards :=
  current.filter (fun p => (List.lookup p.1 prevCardsById).isNone)

/-- Removed ids of computeZoneDiff: keys of the previous Record absent
from current. -/
def diffRemoved (prevCardsById : WireCards) (current : WireCards) : List String :=
  (prevCardsById.map Prod.fst).filter (fun k => (List.lookup k current).isNone)

/-- Shallow embedding of computeZoneDiff from src/pages/MultiplayerGame.tsx.
A null previous snapshot contributes an empty card Record and an empty
previous order, exactly as the source reads prev?.cardsById || {} and
prev?.order || [].  The three loop bodies are hoisted into the named
helpers diffAdded, diffUpdF and diffRemoved. -/
def computeZoneDiff (prev : Option FirebaseZoneWire) (current : FirebaseZoneWire) :
    Option ZoneDiff :=
  let prevCardsById : WireCards := match prev with | some p => p.cardsById | none => []
  let prevOrder : List String := match prev with | some p => p.order | none => []
  let addedCards : WireCards := diffAdded prevCardsById current.cardsById
  let updatedCards : List (String × CardUpdate) :=
    current.cardsById.filterMap (diffUpdF prevCardsById)
  let removedCardIds : List String := diffRemoved prevCardsById current.cardsById
  let orderChanged : Bool := ordersDiffer prevOrder current.order
  let hasChanges : Bool :=
    !addedCards.isEmpty || !removedCardIds.isEmpty || !updatedCards.isEmpty || orderChanged
  if hasChanges then
    some { addedCards := addedCards
           removedCardIds := removedCardIds
           updatedCards := updatedCards
           newOrder := if orderChanged then some current.order else none }
  else none

/-- Remote-store point write at cardsById of a key: a full-value set
replaces the entry when the key exists and appends it otherwise (Record
update semantics). -/
def setKey : WireCards → String → FirebaseGameCard → WireCards
  | [], k, c => [(k, c)]
  | (k', c') :: rest, k, c =>
    if k' = k then (k, c) :: rest else (k', c') :: setKey rest k c

/-- Remote-store null write at cardsById of a key: deletes the entry. -/
def delKey : WireCards → String → WireCards
  | [], _ => []
  | (k', c') :: rest, k =>
    if k' = k then delKey rest k else (k', c') :: delKey rest k

/-- Application of a sparse field patch to one card value. -/
def applyUpd (c : FirebaseGameCard) (u : CardUpdate) : FirebaseGameCard :=
  { c with tapped := u.tapped.getD c.tapped, faceDown := u.faceDown.getD c.faceDown }

/-- Remote-store per-field writes at cardsById of a key: each changed
field of the patch is written below the existing entry.  computeZoneDiff
only emits patches for keys present in the base snapshot, so the model
patches existing entries. -/
def setFields : WireCards → String → CardUpdate → WireCards
  | [], _, _ => []
  | (k', c') :: rest, k, u =>
    if k' = k then (k, applyUpd c' u) :: rest else (k', c') :: setFields rest k u

/-- Effect on one wire zone of the point writes that updatePlayerStateDiff
in src/services/firebase.ts derives from a ZoneDiff: one set per added
card, one delete per removed id, one field write per changed field of each
updated card, and a whole-array write of order when newOrder is non-null.
The diff paths are pairwise disjoint, so sequential application coincides
with the single multi-path update issued by the source. -/
def applyZoneDiff (z : FirebaseZoneWire) (d : ZoneDiff) : FirebaseZoneWire :=
  let m1 := d.addedCards.foldl (fun m p => setKey m p.1 p.2) z.cardsById
  let m2 := d.removedCardIds.foldl (fun m k => delKey m k) m1
  let m3 := d.updatedCards.foldl (fun m p => setFields m p.1 p.2) m2
  { cardsById := m3
    order := match d.newOrder with | some o => o | none => z.order }

/-- Effect of a nullable diff: updatePlayerStateDiff skips a zone whose
diff is absent, so a null diff writes nothing and leaves the zone as is. -/
def applyZoneDiffOpt (z : FirebaseZoneWire) (d : Option ZoneDiff) : FirebaseZoneWire :=
  match d with
  | none => z
  | some d => applyZoneDiff z d

/-- Wire equality of zones: same order array and the same cardsById
mapping (extensional equality of the Records). -/
def wireEq (a b : FirebaseZoneWire) : Prop :=
  a.order = b.order ∧ ∀ k, List.lookup k a.cardsById = List.lookup k b.cardsById

/-- Record representation invariant: keys of the association list are
unique, as they necessarily are for a JavaScript Record. -/
def nodupKeys (m : WireCards) : Prop :=
  (m.map Prod.fst).Nodup

/-- Well-formed wire zone: the order array is a permutation of the keys of
cardsById, and the keys are unique. -/
def ZoneWF (z : FirebaseZoneWire) : Prop :=
  List.Perm z.order (z.cardsById.map Prod.fst) ∧ nodupKeys z.cardsById

instance (m : WireCards) : Decidable (nodupKeys m) := by
  unfold nodupKeys; infer_instance

instance (z : FirebaseZoneWire) : Decidable (ZoneWF z) := by
  unfold ZoneWF; exact instDecidableAnd

/-- Agreement of the identity fields of the cards shared by two card
Records: entries found under the same key carry the same instanceId and
the same cardId. -/
def idAgree (P C : WireCards) : Prop :=
  ∀ k a b, List.lookup k P = some a → List.lookup k C = some b →
    a.instanceId = b.instanceId ∧ a.cardId = b.cardId

/-- Placeholder catalog entry from createUnknownCard in
src/pages/MultiplayerGame.tsx: carries only the unresolved id. -/
def createUnknownCard (id : String) : ScryfallCard :=
  { id := id
    name := "Unknown Card"
    cmc := 0
    type_line := ""
    color_identity := []
    set := ""
    set_name := ""
    rarity := "" }

/-- Zone argument accepted by hydrateZone and collectZoneCardIds: either
the legacy bare array encoding or the map-plus-order wire encoding.  The
absent (undefined) case is modelled by wrapping in Option. -/
inductive ZoneInput where
  | legacy (cards : List FirebaseGameCard)
  | wire (zone : FirebaseZoneWire)
deriving DecidableEq, Repr

/-- Wires list built inside hydrateZone: the legacy array itself, or the
cards found by looking every order entry up in cardsById, dropping the
ids that resolve to nothing. -/
def zoneWires : Option ZoneInput → List FirebaseGameCard
  | none => []
  | some (.legacy arr) => arr
  | some (.wire z) => z.order.filterMap (fun id => List.lookup id z.cardsById)

/-- Catalog resolution step of hydrateZone: the local deck map first, then
the process-wide scryfall cache, then the synthesized placeholder.  Both
lookups are modelled as functions from id to optional catalog entry. -/
def resolveCard (localCards cachedById : String → Option ScryfallCard)
    (cardId : String) : ScryfallCard :=
  match localCards cardId with
  | some c => c
  | none =>
    match cachedById cardId with
    | some c => c
    | none => createUnknownCard cardId

/-- Hydration of one wire card into a local GameCard. -/
def hydrateWireCard (localCards cachedById : String → Option ScryfallCard)
    (wire : FirebaseGameCard) : GameCard :=
  { instanceId := wire.instanceId
    card := resolveCard localCards cachedById wire.cardId
    tapped := wire.tapped
    faceDown := wire.faceDown }

/-- Shallow embedding of hydrateZone from src/pages/MultiplayerGame.tsx. -/
def hydrateZone (zone : Option ZoneInput)
    (localCards cachedById : String → Option ScryfallCard) : List GameCard :=
  (zoneWires zone).map (hydrateWireCard localCards cachedById)

/-- Shallow embedding of collectZoneCardIds from
src/pages/MultiplayerGame.tsx: one cardId per card instance, read from the
array in the legacy form and from the Record values in the wire form. -/
def collectZoneCardIds : Option ZoneInput → List String
  | none => []
  | some (.legacy arr) => arr.map (fun c => c.cardId)
  | some (.wire z) => z.cardsById.map (fun p => p.2.cardId)

/-- JavaScript Set construction over a list of ids: keeps the first
occurrence of each id, in order. -/
def dedupKeepFirst : List String → List String → List String
  | [], _ => []
  | x :: xs, seen =>
    if x ∈ seen then dedupKeepFirst xs seen else x :: dedupKeepFirst xs (x :: seen)

/-- Deduplication step of prefetchCardsById in the scryfall service:
Array.from(new Set(ids)).filter(Boolean), the Boolean filter dropping the
empty string. -/
def prefetchUniqueIds (ids : List String) : List String :=
  (dedupKeepFirst ids []).filter (fun s => s ≠ "")

/-- Swap of two positions of a list, the destructuring swap inside the
shuffle loop.  Both indices are in bounds whenever the source executes
the swap. -/
def listSwap {α : Type _} (l : List α) (i j : Nat) : List α :=
  match l[i]?, l[j]? with
  | some a, some b => (l.set i b).set j a
  | _, _ => l

/-- Descending Fisher-Yates loop of shuffleArray: step fuel k performs the
swaps at indices k, k-1, ..., 1.  The random draw floor(random()*(i+1))
ranges over 0..i and is modelled by an arbitrary nat stream reduced
modulo i+1, which reaches exactly the same values. -/
def shuffleSteps {α : Type _} (rand : Nat → Nat) : Nat → List α → List α
  | 0, l => l
  | i + 1, l => shuffleSteps rand i (listSwap l (i + 1) (rand (i + 1) % (i + 2)))

/-- Shallow embedding of shuffleArray from src/pages/MultiplayerGame.tsx:
copies the input and runs the descending swap loop from length-1 down
to 1. -/
def shuffleArray {α : Type _} (rand : Nat → Nat) (array : List α) : List α :=
  shuffleSteps rand (array.length - 1) array

/-- Shallow embedding of advanceTurn from src/services/firebase.ts.  The
boolean argument models whether getDb() returned a database handle; the
result is the currentTurnIndex value written to the room, none meaning no
write is issued.  JavaScript % on integers is the truncating remainder,
Int.tmod. -/
def advanceTurn (dbAvailable : Bool) (turnOrderLength currentTurnIndex : Int) :
    Option Int :=
  if !dbAvailable then none
  else if turnOrderLength ≤ 0 then none
  else some (Int.tmod (currentTurnIndex + 1) turnOrderLength)

/-- Shallow embedding of addPlayerToTurnOrder from
src/services/firebase.ts: the result is the turnOrder array written to the
room, none meaning no write is issued. -/
def addPlayerToTurnOrder (dbAvailable : Bool) (turnOrder : List String)
    (uid : String) (roomExists : Bool) : Option (List String) :=
  if !dbAvailable || !roomExists then none
  else if turnOrder.contains uid then none
  else some (turnOrder ++ [uid])

/-! Helper lemmas about association-list lookups. -/

theorem lookup_cons_eq {β : Type _} (k k₁ : String) (c₁ : β) (rest : List (String × β)) :
    List.lookup k ((k₁, c₁) :: rest) =
      if k = k₁ then some c₁ else List.lookup k rest := by
  by_cases h : k = k₁
  · subst h
    simp [List.lookup_cons]
  · have hb : (k == k₁) = false := beq_eq_false_iff_ne.mpr h
    simp [List.lookup_cons, hb, h]

theorem lookup_cons_pair {β : Type _} (k : String) (q : String × β)
    (rest : List (String × β)) :
    List.lookup k (q :: rest) =
      if k = q.1 then some q.2 else List.lookup k rest := by
  obtain ⟨a, b⟩ := q
  exact lookup_cons_eq k a b rest

theorem mem_of_lookup {β : Type _} {k : String} {c : β} {m : List (String × β)}
    (h : List.lookup k m = some c) : (k, c) ∈ m := by
  obtain ⟨l₁, l₂, rfl, -⟩ := List.lookup_eq_some_iff.mp h
  exact List.mem_append.mpr (Or.inr (List.mem_cons_self _ _))

theorem lookup_isSome_of_mem {β : Type _} {k : String} {c : β} {m : List (String × β)}
    (h : (k, c) ∈ m) : (List.lookup k m).isSome := by
  exact List.lookup_isSome_iff.mpr ⟨(k, c), h, by simp⟩

theorem lookup_of_mem_nodup {β : Type _} {k : String} {c : β} {m : List (String × β)}
    (hm : (m.map Prod.fst).Nodup) (h : (k, c) ∈ m) : List.lookup k m = some c := by
  induction m with
  | nil => cases h
  | cons p rest ih =>
    obtain ⟨k₁, c₁⟩ := p
    have hm' : k₁ ∉ rest.map Prod.fst ∧ (rest.map Prod.fst).Nodup :=
      List.nodup_cons.mp (show (k₁ :: rest.map Prod.fst).Nodup from hm)
    rcases List.mem_cons.mp h with hh | hh
    · cases hh
      simp [lookup_cons_eq]
    · have hk : k ≠ k₁ := fun hkk =>
        hm'.1 (hkk ▸ List.mem_map_of_mem Prod.fst hh)
      rw [lookup_cons_eq, if_neg hk]
      exact ih hm'.2 hh

theorem lookup_filter_key {β : Type _} (m : List (String × β)) (q : String → Bool)
    (k : String) :
    List.lookup k (m.filter fun p => q p.1) =
      if q k then List.lookup k m else none := by
  induction m with
  | nil => simp
  | cons p rest ih =>
    obtain ⟨k₁, c₁⟩ := p
    by_cases hk : k = k₁
    · subst hk
      by_cases hq : q k = true
      · simp [List.filter_cons, hq, lookup_cons_eq]
      · simp only [List.filter_cons, hq, if_neg, Bool.false_eq_true, ite_false]
        rw [ih]
        simp [hq]
    · by_cases hq : q k₁ = true
      · simp only [List.filter_cons, hq, ite_true]
        rw [lookup_cons_eq, if_neg hk, lookup_cons_eq, if_neg hk, ih]
      · simp only [List.filter_cons, hq, Bool.false_eq_true, ite_false]
        rw [ih, lookup_cons_eq, if_neg hk]

theorem keys_filterMap_keypres {β γ : Type _} (m : List (String × β))
    (f : String × β → Option (String × γ))
    (hf : ∀ p q, f p = some q → q.1 = p.1) :
    ((m.filterMap f).map Prod.fst).Sublist (m.map Prod.fst) := by
  induction m with
  | nil => simp
  | cons p rest ih =>
    rcases hfp : f p with - | q
    · simpa [List.filterMap_cons, hfp] using List.Sublist.cons p.1 ih
    · have : q.1 = p.1 := hf p q hfp
      simpa [List.filterMap_cons, hfp, this] using List.Sublist.cons₂ p.1 ih

theorem lookup_filterMap_keypres {β γ : Type _} {m : List (String × β)}
    {f : String × β → Option (String × γ)}
    (hf : ∀ p q, f p = some q → q.1 = p.1)
    (hm : (m.map Prod.fst).Nodup) (k : String) :
    List.lookup k (m.filterMap f) =
      (List.lookup k m).bind (fun c => (f (k, c)).map Prod.snd) := by
  induction m with
  | nil => simp
  | cons p rest ih =>
    obtain ⟨k₁, c₁⟩ := p
    have hm' : k₁ ∉ rest.map Prod.fst ∧ (rest.map Prod.fst).Nodup :=
      List.nodup_cons.mp (show (k₁ :: rest.map Prod.fst).Nodup from hm)
    rcases hfp : f (k₁, c₁) with - | q
    · by_cases hk : k = k₁
      · subst hk
        have hnone : List.lookup k (rest.filterMap f) = none := by
          apply List.lookup_eq_none_iff.mpr
          intro p hp
          rcases List.mem_filterMap.mp hp with ⟨a, ha, hfa⟩
          have hp1 : p.1 = a.1 := hf a p hfa
          have hka : a.1 ≠ k := fun hkk =>
            hm'.1 (hkk ▸ List.mem_map_of_mem Prod.fst ha)
          simpa [hp1] using Ne.symm hka
        rw [List.filterMap_cons, hfp, hnone, lookup_cons_eq, if_pos rfl]
        simp [hfp]
      · rw [List.filterMap_cons, hfp, lookup_cons_eq, if_neg hk]
        exact ih hm'.2
    · have hq1 : q.1 = k₁ := hf _ _ hfp
      by_cases hk : k = k₁
      · subst hk
        rw [List.filterMap_cons, hfp, lookup_cons_pair, hq1, if_pos rfl,
          lookup_cons_eq, if_pos rfl]
        simp [hfp]
      · rw [List.filterMap_cons, hfp, lookup_cons_pair, hq1, if_neg hk,
          lookup_cons_eq, if_neg hk]
        exact ih hm'.2

theorem lookup_setKey (m : WireCards) (k : String) (c : FirebaseGameCard)
    (k₀ : String) :
    List.lookup k₀ (setKey m k c) = if k₀ = k then some c else List.lookup k₀ m := by
  induction m with
  | nil =>
    by_cases hk : k₀ = k <;> simp [setKey, lookup_cons_eq, hk]
  | cons p rest ih =>
    obtain ⟨k₁, c₁⟩ := p
    simp only [setKey]
    by_cases h1 : k₁ = k
    · subst h1
      rw [if_pos rfl]
      by_cases hk : k₀ = k₁ <;> simp [lookup_cons_eq, hk]
    · rw [if_neg h1]
      by_cases hk : k₀ = k₁
      · have h0 : k₀ ≠ k := by rw [hk]; exact h1
        simp [lookup_cons_eq, hk, h0, h1]
      · simp [lookup_cons_eq, hk, ih]

theorem lookup_delKey (m : WireCards) (k : String) (k₀ : String) :
    List.lookup k₀ (delKey m k) = if k₀ = k then none else List.lookup k₀ m := by
  induction m with
  | nil => simp [delKey]
  | cons p rest ih =>
    obtain ⟨k₁, c₁⟩ := p
    simp only [delKey]
    by_cases h1 : k₁ = k
    · subst h1
      rw [if_pos rfl, ih]
      by_cases hk : k₀ = k₁ <;> simp [lookup_cons_eq, hk]
    · rw [if_neg h1]
      by_cases hk : k₀ = k₁
      · have h0 : k₀ ≠ k := by rw [hk]; exact h1
        simp [lookup_cons_eq, hk, h0, h1]
      · simp [lookup_cons_eq, hk, ih]

theorem lookup_setFields (m : WireCards) (k : String) (u : CardUpdate)
    (k₀ : String) :
    List.lookup k₀ (setFields m k u) =
      if k₀ = k then (List.lookup k m).map (fun c => applyUpd c u)
      else List.lookup k₀ m := by
  induction m with
  | nil => by_cases hk : k₀ = k <;> simp [setFields, hk]
  | cons p rest ih =>
    obtain ⟨k₁, c₁⟩ := p
    simp only [setFields]
    by_cases h1 : k₁ = k
    · subst h1
      rw [if_pos rfl]
      by_cases hk : k₀ = k₁ <;> simp [lookup_cons_eq, hk]
    · rw [if_neg h1]
      have h1' : k ≠ k₁ := fun h => h1 h.symm
      by_cases hk : k₀ = k₁
      · have h0 : k₀ ≠ k := by rw [hk]; exact h1
        simp [lookup_cons_eq, hk, h0, h1]
      · simp [lookup_cons_eq, hk, ih, h1']

theorem mem_keys_iff_lookup_isSome {β : Type _} (k : String) (m : List (String × β)) :
    k ∈ m.map Prod.fst ↔ (List.lookup k m).isSome := by
  constructor
  · intro h
    rcases List.mem_map.mp h with ⟨p, hp, hk⟩
    exact lookup_isSome_of_mem (show (k, p.2) ∈ m from hk ▸ hp)
  · intro h
    rcases Option.isSome_iff_exists.mp h with ⟨c, hc⟩
    exact List.mem_map_of_mem Prod.fst (mem_of_lookup hc)

theorem lookup_eq_none_of_not_mem_keys {β : Type _} {k : String} {m : List (String × β)}
    (h : k ∉ m.map Prod.fst) : List.lookup k m = none := by
  rcases hv : List.lookup k m with - | c
  · rfl
  · exact absurd ((mem_keys_iff_lookup_isSome k m).mpr (by simp [hv])) h

theorem lookup_foldl_setKey (l : WireCards) :
    ∀ (m : WireCards), (l.map Prod.fst).Nodup → ∀ k,
      List.lookup k (l.foldl (fun m p => setKey m p.1 p.2) m) =
        (List.lookup k l).or (List.lookup k m) := by
  induction l with
  | nil => intro m _ k; simp
  | cons p rest ih =>
    intro m hnd k
    obtain ⟨k₁, c₁⟩ := p
    have hm' : k₁ ∉ rest.map Prod.fst ∧ (rest.map Prod.fst).Nodup :=
      List.nodup_cons.mp (show (k₁ :: rest.map Prod.fst).Nodup from hnd)
    rw [List.foldl_cons, ih (setKey m k₁ c₁) hm'.2 k, lookup_setKey, lookup_cons_eq]
    by_cases hk : k = k₁
    · subst hk
      rw [if_pos rfl, if_pos rfl, lookup_eq_none_of_not_mem_keys hm'.1]
      rfl
    · rw [if_neg hk, if_neg hk]

theorem lookup_foldl_delKey (l : List String) :
    ∀ (m : WireCards) (k : String),
      List.lookup k (l.foldl (fun m i => delKey m i) m) =
        if k ∈ l then none else List.lookup k m := by
  induction l with
  | nil => intro m k; simp
  | cons k₁ rest ih =>
    intro m k
    rw [List.foldl_cons, ih (delKey m k₁) k, lookup_delKey]
    by_cases hk : k = k₁
    · subst hk
      by_cases hr : k ∈ rest <;> simp [hr]
    · by_cases hr : k ∈ rest <;> simp [hr, hk]

theorem lookup_foldl_setFields (l : List (String × CardUpdate)) :
    ∀ (m : WireCards), (l.map Prod.fst).Nodup → ∀ k,
      List.lookup k (l.foldl (fun m p => setFields m p.1 p.2) m) =
        match List.lookup k l with
        | some u => (List.lookup k m).map (fun c => applyUpd c u)
        | none => List.lookup k m := by
  induction l with
  | nil => intro m _ k; simp
  | cons p rest ih =>
    intro m hnd k
    obtain ⟨k₁, u₁⟩ := p
    have hm' : k₁ ∉ rest.map Prod.fst ∧ (rest.map Prod.fst).Nodup :=
      List.nodup_cons.mp (show (k₁ :: rest.map Prod.fst).Nodup from hnd)
    rw [List.foldl_cons, ih (setFields m k₁ u₁) hm'.2 k, lookup_cons_eq]
    by_cases hk : k = k₁
    · subst hk
      rw [if_pos rfl, lookup_eq_none_of_not_mem_keys hm'.1, lookup_setFields,
        if_pos rfl]
    · rw [if_neg hk, lookup_setFields, if_neg hk]

theorem diffUpdF_keypres (P : WireCards) :
    ∀ p q, diffUpdF P p = some q → q.1 = p.1 := by
  intro p q h
  unfold diffUpdF at h
  rcases hl : List.lookup p.1 P with - | prevCard
  · rw [hl] at h; cases h
  · rw [hl] at h
    by_cases hu : mkCardUpdates prevCard p.2 = emptyUpdate
    · simp [hu] at h
    · simp only [hu, if_neg, ite_false] at h
      cases h
      rfl

theorem mkCardUpdates_self (c : FirebaseGameCard) : mkCardUpdates c c = emptyUpdate := by
  simp [mkCardUpdates, emptyUpdate]

theorem mkCardUpdates_eq_empty_iff (a b : FirebaseGameCard) :
    mkCardUpdates a b = emptyUpdate ↔ a.tapped = b.tapped ∧ a.faceDown = b.faceDown := by
  obtain ⟨ai, ac, at1, af⟩ := a
  obtain ⟨bi, bc, bt, bf⟩ := b
  cases at1 <;> cases bt <;> cases af <;> cases bf <;>
    simp [mkCardUpdates, emptyUpdate]

theorem applyUpd_mkCardUpdates (a b : FirebaseGameCard)
    (h1 : a.instanceId = b.instanceId) (h2 : a.cardId = b.cardId) :
    applyUpd a (mkCardUpdates a b) = b := by
  obtain ⟨ai, ac, at1, af⟩ := a
  obtain ⟨bi, bc, bt, bf⟩ := b
  cases h1
  cases h2
  cases at1 <;> cases bt <;> cases af <;> cases bf <;> rfl

theorem ordersDiffer_eq_false_iff (p c : List String) :
    ordersDiffer p c = false ↔ p = c := by
  unfold ordersDiffer
  constructor
  · intro h
    rcases Bool.or_eq_false_iff.mp h with ⟨hlen, hall⟩
    have hlen' : p.length = c.length := by
      simpa using hlen
    apply List.ext_getElem?
    intro n
    by_cases hn : n < c.length
    · have := List.any_eq_false.mp hall n (List.mem_range.mpr hn)
      simpa using this
    · rw [List.getElem?_eq_none (by omega), List.getElem?_eq_none (by omega)]
  · rintro rfl
    apply Bool.or_eq_false_iff.mpr
    constructor
    · simp
    · apply List.any_eq_false.mpr
      intro i _
      simp

theorem ordersDiffer_eq_true_iff (p c : List String) :
    ordersDiffer p c = true ↔ p ≠ c := by
  constructor
  · intro h heq
    have := (ordersDiffer_eq_false_iff p c).mpr heq
    rw [h] at this
    cases this
  · intro h
    rcases hv : ordersDiffer p c with - | -
    · exact absurd ((ordersDiffer_eq_false_iff p c).mp hv) h
    · rfl

theorem computeZoneDiff_none_parts (A B : FirebaseZoneWire)
    (h : computeZoneDiff (some A) B = none) :
    diffAdded A.cardsById B.cardsById = [] ∧
    diffRemoved A.cardsById B.cardsById = [] ∧
    B.cardsById.filterMap (diffUpdF A.cardsById) = [] ∧
    A.order = B.order := by
  unfold computeZoneDiff at h
  simp only at h
  split at h
  · cases h
  · rename_i hcond
    have hc : (!(diffAdded A.cardsById B.cardsById).isEmpty ||
        !(diffRemoved A.cardsById B.cardsById).isEmpty ||
        !(B.cardsById.filterMap (diffUpdF A.cardsById)).isEmpty ||
        ordersDiffer A.order B.order) = false := by
      rcases hv : (!(diffAdded A.cardsById B.cardsById).isEmpty ||
          !(diffRemoved A.cardsById B.cardsById).isEmpty ||
          !(B.cardsById.filterMap (diffUpdF A.cardsById)).isEmpty ||
          ordersDiffer A.order B.order) with - | -
      · rfl
      · exact absurd hv hcond
    simp only [Bool.or_eq_false_iff, Bool.not_eq_false'] at hc
    obtain ⟨⟨⟨h1, h2⟩, h3⟩, h4⟩ := hc
    exact ⟨List.isEmpty_iff.mp h1, List.isEmpty_iff.mp h2, List.isEmpty_iff.mp h3,
      (ordersDiffer_eq_false_iff _ _).mp h4⟩

theorem computeZoneDiff_some_parts (A B : FirebaseZoneWire) (d : ZoneDiff)
    (h : computeZoneDiff (some A) B = some d) :
    d = { addedCards := diffAdded A.cardsById B.cardsById
          removedCardIds := diffRemoved A.cardsById B.cardsById
          updatedCards := B.cardsById.filterMap (diffUpdF A.cardsById)
          newOrder := if ordersDiffer A.order B.order then some B.order else none } := by
  unfold computeZoneDiff at h
  simp only at h
  split at h
  · cases h
    rfl
  · cases h

theorem computeZoneDiff_self (B : FirebaseZoneWire) (hB : nodupKeys B.cardsById) :
    computeZoneDiff (some B) B = none := by
  have hadd : diffAdded B.cardsById B.cardsById = [] := by
    apply List.filter_eq_nil.mpr
    intro p hp
    have hs := lookup_isSome_of_mem (show (p.1, p.2) ∈ B.cardsById from hp)
    rcases Option.isSome_iff_exists.mp hs with ⟨c, hc⟩
    simp [hc]
  have hrem : diffRemoved B.cardsById B.cardsById = [] := by
    apply List.filter_eq_nil.mpr
    intro k hk
    have hs := (mem_keys_iff_lookup_isSome k B.cardsById).mp hk
    rcases Option.isSome_iff_exists.mp hs with ⟨c, hc⟩
    simp [hc]
  have hupd : B.cardsById.filterMap (diffUpdF B.cardsById) = [] := by
    apply List.filterMap_eq_nil.mpr
    intro p hp
    have hl : List.lookup p.1 B.cardsById = some p.2 :=
      lookup_of_mem_nodup hB (show (p.1, p.2) ∈ B.cardsById from hp)
    unfold diffUpdF
    rw [hl]
    simp [mkCardUpdates_self]
  have hord : ordersDiffer B.order B.order = false :=
    (ordersDiffer_eq_false_iff _ _).mpr rfl
  unfold computeZoneDiff
  simp only [hadd, hrem, hupd, hord]
  simp

theorem diffUpdF_pair (P : WireCards) (k : String) (c : FirebaseGameCard) :
    diffUpdF P (k, c) =
      match List.lookup k P with
      | none => none
      | some prevCard =>
        if mkCardUpdates prevCard c = emptyUpdate then none
        else some (k, mkCardUpdates prevCard c) := rfl

theorem card_ext {a b : FirebaseGameCard} (h1 : a.instanceId = b.instanceId)
    (h2 : a.cardId = b.cardId) (h3 : a.tapped = b.tapped)
    (h4 : a.faceDown = b.faceDown) : a = b := by
  obtain ⟨ai, ac, at1, af⟩ := a
  obtain ⟨bi, bc, bt, bf⟩ := b
  cases h1
  cases h2
  cases h3
  cases h4
  rfl

theorem lookup_diffAdded (P C : WireCards) (k : String) :
    List.lookup k (diffAdded P C) =
      if (List.lookup k P).isNone then List.lookup k C else none := by
  unfold diffAdded
  exact lookup_filter_key C (fun x => (List.lookup x P).isNone) k

theorem mem_diffRemoved (P C : WireCards) (k : String) :
    k ∈ diffRemoved P C ↔ k ∈ P.map Prod.fst ∧ List.lookup k C = none := by
  unfold diffRemoved
  rw [List.mem_filter]
  simp [Option.isNone_iff_eq_none]

theorem lookup_diffUpdated (P C : WireCards) (hC : (C.map Prod.fst).Nodup)
    (k : String) :
    List.lookup k (C.filterMap (diffUpdF P)) =
      (List.lookup k C).bind (fun c => (diffUpdF P (k, c)).map Prod.snd) :=
  lookup_filterMap_keypres (diffUpdF_keypres P) hC k

theorem roundTrip_lookup (A B : FirebaseZoneWire)
    (hA : nodupKeys A.cardsById) (hB : nodupKeys B.cardsById)
    (hid : idAgree A.cardsById B.cardsById) (k : String) :
    List.lookup k (applyZoneDiffOpt A (computeZoneDiff (some A) B)).cardsById =
      List.lookup k B.cardsById := by
  rcases hd : computeZoneDiff (some A) B with - | d
  · obtain ⟨hadd, hrem, hupd, -⟩ := computeZoneDiff_none_parts A B hd
    show List.lookup k A.cardsById = List.lookup k B.cardsById
    rcases hBk : List.lookup k B.cardsById with - | b
    · rcases hAk : List.lookup k A.cardsById with - | a
      · rfl
      · exfalso
        have hkA : k ∈ A.cardsById.map Prod.fst :=
          (mem_keys_iff_lookup_isSome k A.cardsById).mpr (by simp [hAk])
        unfold diffRemoved at hrem
        have := List.filter_eq_nil_iff.mp hrem k hkA
        simp [hBk] at this
    · have hmem : (k, b) ∈ B.cardsById := mem_of_lookup hBk
      unfold diffAdded at hadd
      have hAkSome := List.filter_eq_nil_iff.mp hadd (k, b) hmem
      rcases hAk : List.lookup k A.cardsById with - | a
      · simp [hAk] at hAkSome
      · have hnone : diffUpdF A.cardsById (k, b) = none :=
          List.filterMap_eq_nil_iff.mp hupd (k, b) hmem
        rw [diffUpdF_pair, hAk] at hnone
        have hempty : mkCardUpdates a b = emptyUpdate := by
          by_cases hu : mkCardUpdates a b = emptyUpdate
          · exact hu
          · simp [hu] at hnone
        obtain ⟨h1, h2⟩ := hid k a b hAk hBk
        obtain ⟨h3, h4⟩ := (mkCardUpdates_eq_empty_iff a b).mp hempty
        rw [card_ext h1 h2 h3 h4]
  · have hdeq := computeZoneDiff_some_parts A B d hd
    subst hdeq
    have hAddNd : ((diffAdded A.cardsById B.cardsById).map Prod.fst).Nodup := by
      unfold diffAdded
      exact List.Nodup.sublist ((List.filter_sublist _).map Prod.fst) hB
    have hUpdNd : ((B.cardsById.filterMap (diffUpdF A.cardsById)).map Prod.fst).Nodup :=
      List.Nodup.sublist (keys_filterMap_keypres _ _ (diffUpdF_keypres _)) hB
    show List.lookup k (applyZoneDiff A _).cardsById = _
    unfold applyZoneDiff
    simp only
    rw [lookup_foldl_setFields _ _ hUpdNd k, lookup_diffUpdated _ _ hB k,
      lookup_foldl_delKey, lookup_foldl_setKey _ _ hAddNd k, lookup_diffAdded]
    rcases hAk : List.lookup k A.cardsById with - | a <;>
      rcases hBk : List.lookup k B.cardsById with - | b
    · have hmemR : k ∉ diffRemoved A.cardsById B.cardsById := by
        rw [mem_diffRemoved, mem_keys_iff_lookup_isSome]
        simp [hAk]
      simp [hAk, hBk, hmemR]
    · have hmemR : k ∉ diffRemoved A.cardsById B.cardsById := by
        rw [mem_diffRemoved, mem_keys_iff_lookup_isSome]
        simp [hAk]
      simp [hAk, hBk, hmemR, diffUpdF_pair]
    · have hmemR : k ∈ diffRemoved A.cardsById B.cardsById := by
        rw [mem_diffRemoved, mem_keys_iff_lookup_isSome]
        simp [hAk, hBk]
      simp [hAk, hBk, hmemR]
    · have hmemR : k ∉ diffRemoved A.cardsById B.cardsById := by
        rw [mem_diffRemoved]
        simp [hBk]
      obtain ⟨h1, h2⟩ := hid k a b hAk hBk
      by_cases hu : mkCardUpdates a b = emptyUpdate
      · obtain ⟨h3, h4⟩ := (mkCardUpdates_eq_empty_iff a b).mp hu
        simp [hAk, hBk, hmemR, diffUpdF_pair, card_ext h1 h2 h3 h4,
          mkCardUpdates_self]
      · simp [hAk, hBk, hmemR, diffUpdF_pair, hu,
          applyUpd_mkCardUpdates a b h1 h2]

theorem computeZoneDiff_eq_none_of_parts (A B : FirebaseZoneWire)
    (h1 : diffAdded A.cardsById B.cardsById = [])
    (h2 : diffRemoved A.cardsById B.cardsById = [])
    (h3 : B.cardsById.filterMap (diffUpdF A.cardsById) = [])
    (h4 : ordersDiffer A.order B.order = false) :
    computeZoneDiff (some A) B = none := by
  unfold computeZoneDiff
  simp only [h1, h2, h3, h4]
  simp

/-- Key-set plus flag agreement between two card Records: the same keys
are present, and entries under a common key agree on both mutable flags
(the identity fields are not compared, mirroring computeZoneDiff). -/
def flagsAgree (P C : WireCards) : Prop :=
  (∀ k, (List.lookup k P).isSome ↔ (List.lookup k C).isSome) ∧
  (∀ k a b, List.lookup k P = some a → List.lookup k C = some b →
    a.tapped = b.tapped ∧ a.faceDown = b.faceDown)

theorem diffAdded_nil (C : WireCards) : diffAdded [] C = C := by
  unfold diffAdded
  apply List.filter_eq_self.mpr
  intro p _
  simp

theorem diffRemoved_nil (C : WireCards) : diffRemoved [] C = [] := rfl

theorem filterMap_diffUpdF_nil (C : WireCards) :
    C.filterMap (diffUpdF []) = [] :=
  List.filterMap_eq_nil_iff.mpr (fun _ _ => rfl)

theorem computeZoneDiff_nil_prev_none_iff (cur : FirebaseZoneWire) :
    computeZoneDiff none cur = none ↔ cur.cardsById = [] ∧ cur.order = [] := by
  simp only [computeZoneDiff, diffAdded_nil, diffRemoved_nil, filterMap_diffUpdF_nil,
    List.isEmpty_nil, Bool.not_true, Bool.or_false, Bool.false_or]
  constructor
  · intro h
    split at h
    · cases h
    · rename_i hcond
      have hc : (!cur.cardsById.isEmpty || ordersDiffer [] cur.order) = false := by
        rcases hv : (!cur.cardsById.isEmpty || ordersDiffer [] cur.order) with - | -
        · rfl
        · exact absurd hv hcond
      rcases Bool.or_eq_false_iff.mp hc with ⟨hc1, hc2⟩
      refine ⟨List.isEmpty_iff.mp (by simpa using hc1), ?_⟩
      exact ((ordersDiffer_eq_false_iff _ _).mp hc2).symm
  · rintro ⟨hcards, horder⟩
    have h1 : cur.cardsById.isEmpty = true := List.isEmpty_iff.mpr hcards
    have h2 : ordersDiffer [] cur.order = false :=
      (ordersDiffer_eq_false_iff _ _).mpr horder.symm
    simp [h1, h2]

theorem mem_setKey {m : WireCards} {k : String} {c : FirebaseGameCard}
    {p : String × FirebaseGameCard} (h : p ∈ setKey m k c) :
    p = (k, c) ∨ p ∈ m := by
  induction m with
  | nil =>
    simp only [setKey] at h
    rcases List.mem_singleton.mp h with h
    exact Or.inl h
  | cons q rest ih =>
    obtain ⟨k₁, c₁⟩ := q
    simp only [setKey] at h
    by_cases h1 : k₁ = k
    · rw [if_pos h1] at h
      rcases List.mem_cons.mp h with h | h
      · exact Or.inl h
      · exact Or.inr (List.mem_cons_of_mem _ h)
    · rw [if_neg h1] at h
      rcases List.mem_cons.mp h with h | h
      · exact Or.inr (h ▸ List.mem_cons_self _ _)
      · rcases ih h with h | h
        · exact Or.inl h
        · exact Or.inr (List.mem_cons_of_mem _ h)

theorem setKey_append {l₁ l₂ : WireCards} {k : String} {c c' : FirebaseGameCard}
    (h : ∀ p ∈ l₁, ¬(k == p.1) = true) :
    setKey (l₁ ++ (k, c) :: l₂) k c' = l₁ ++ (k, c') :: l₂ := by
  induction l₁ with
  | nil => simp [setKey]
  | cons q rest ih =>
    obtain ⟨k₁, c₁⟩ := q
    have hk1 : k₁ ≠ k := by
      have := h (k₁, c₁) (List.mem_cons_self _ _)
      simp at this
      exact fun hkk => this hkk.symm
    simp only [List.cons_append, setKey, if_neg hk1]
    exact congrArg (List.cons (k₁, c₁)) (ih (fun p hp => h p (List.mem_cons_of_mem _ hp)))

/-- Tap toggle on one card, the mutation the tap action performs on a
battlefield card. -/
def toggleTapped (c : FirebaseGameCard) : FirebaseGameCard :=
  { c with tapped := !c.tapped }

theorem mkCardUpdates_toggle (c : FirebaseGameCard) :
    mkCardUpdates c (toggleTapped c) =
      { tapped := some (!c.tapped), faceDown := none } := by
  obtain ⟨i, ci, t, f⟩ := c
  cases t <;> cases f <;> rfl

theorem cons_set_perm {α : Type _} :
    ∀ (xs : List α) (j : Nat) (b x : α), xs[j]? = some b →
      List.Perm (b :: xs.set j x) (x :: xs) := by
  intro xs
  induction xs with
  | nil =>
    intro j b x h
    simp at h
  | cons y t ih =>
    intro j b x h
    cases j with
    | zero =>
      have hy : y = b := by simpa using h
      subst hy
      exact List.Perm.swap x y t
    | succ j =>
      have ht : t[j]? = some b := by simpa using h
      show List.Perm (b :: y :: t.set j x) (x :: y :: t)
      exact (List.Perm.swap y b _).trans (((ih j b x ht).cons y).trans (List.Perm.swap x y t))

theorem set_set_perm {α : Type _} :
    ∀ (l : List α) (i j : Nat) (a b : α),
      l[i]? = some a → l[j]? = some b → List.Perm ((l.set i b).set j a) l := by
  intro l
  induction l with
  | nil =>
    intro i j a b h
    simp at h
  | cons x t ih =>
    intro i j a b ha hb
    cases i with
    | zero =>
      have hax : x = a := by simpa using ha
      cases j with
      | zero =>
        have hbx : x = b := by simpa using hb
        subst hax
        show List.Perm (x :: t) (x :: t)
        exact List.Perm.refl _
      | succ j =>
        have ht : t[j]? = some b := by simpa using hb
        subst hax
        show List.Perm (b :: t.set j x) (x :: t)
        exact cons_set_perm t j b x ht
    | succ i =>
      cases j with
      | zero =>
        have hbx : x = b := by simpa using hb
        have ht : t[i]? = some a := by simpa using ha
        subst hbx
        show List.Perm (a :: t.set i x) (x :: t)
        exact cons_set_perm t i a x ht
      | succ j =>
        have ha' : t[i]? = some a := by simpa using ha
        have hb' : t[j]? = some b := by simpa using hb
        show List.Perm (x :: (t.set i b).set j a) (x :: t)
        exact (ih i j a b ha' hb').cons x

theorem listSwap_perm {α : Type _} (l : List α) (i j : Nat) :
    List.Perm (listSwap l i j) l := by
  unfold listSwap
  rcases hi : l[i]? with - | a
  · exact List.Perm.refl l
  · rcases hj : l[j]? with - | b
    · exact List.Perm.refl l
    · exact set_set_perm l i j a b hi hj

theorem shuffleSteps_perm {α : Type _} (rand : Nat → Nat) :
    ∀ (n : Nat) (l : List α), List.Perm (shuffleSteps rand n l) l := by
  intro n
  induction n with
  | zero =>
    intro l
    exact List.Perm.refl l
  | succ i ih =>
    intro l
    exact (ih _).trans (listSwap_perm l (i + 1) (rand (i + 1) % (i + 2)))

theorem shuffleArray_perm_of {α : Type _} (rand : Nat → Nat) (l : List α) :
    List.Perm (shuffleArray rand l) l :=
  shuffleSteps_perm rand (l.length - 1) l

theorem diffUpdF_self_none (A : WireCards) (hA : (A.map Prod.fst).Nodup) :
    ∀ p ∈ A, diffUpdF A p = none := by
  intro p hp
  have hl : List.lookup p.1 A = some p.2 := lookup_of_mem_nodup hA hp
  show diffUpdF A (p.1, p.2) = none
  rw [diffUpdF_pair, hl]
  simp [mkCardUpdates_self]

theorem upd_setKey_toggle (A : WireCards) (hA : (A.map Prod.fst).Nodup)
    (k : String) (c : FirebaseGameCard) (hk : List.lookup k A = some c) :
    (setKey A k (toggleTapped c)).filterMap (diffUpdF A) =
      [(k, { tapped := some (!c.tapped), faceDown := none })] := by
  obtain ⟨l₁, l₂, hsplit, hl₁⟩ := List.lookup_eq_some_iff.mp hk
  have hset : setKey A k (toggleTapped c) = l₁ ++ (k, toggleTapped c) :: l₂ := by
    rw [hsplit]
    exact setKey_append (fun p hp => by simpa using hl₁ p hp)
  have hmemA : ∀ p ∈ l₁ ++ (k, toggleTapped c) :: l₂, p ≠ (k, toggleTapped c) → p ∈ A := by
    intro p hp hne
    rcases List.mem_append.mp hp with h | h
    · rw [hsplit]
      exact List.mem_append.mpr (Or.inl h)
    · rcases List.mem_cons.mp h with h | h
      · exact absurd h hne
      · rw [hsplit]
        exact List.mem_append.mpr (Or.inr (List.mem_cons_of_mem _ h))
  have hl₁none : l₁.filterMap (diffUpdF A) = [] := by
    apply List.filterMap_eq_nil_iff.mpr
    intro p hp
    apply diffUpdF_self_none A hA
    rw [hsplit]
    exact List.mem_append.mpr (Or.inl hp)
  have hl₂none : l₂.filterMap (diffUpdF A) = [] := by
    apply List.filterMap_eq_nil_iff.mpr
    intro p hp
    apply diffUpdF_self_none A hA
    rw [hsplit]
    exact List.mem_append.mpr (Or.inr (List.mem_cons_of_mem _ hp))
  have htog : diffUpdF A (k, toggleTapped c) =
      some (k, { tapped := some (!c.tapped), faceDown := none }) := by
    rw [diffUpdF_pair, hk]
    show (if mkCardUpdates c (toggleTapped c) = emptyUpdate then none
      else some (k, mkCardUpdates c (toggleTapped c))) = _
    rw [mkCardUpdates_toggle]
    have hne : ({ tapped := some (!c.tapped), faceDown := none } : CardUpdate) ≠
        emptyUpdate := by
      simp [emptyUpdate]
    simp [hne]
  rw [hset, List.filterMap_append, hl₁none, List.filterMap_cons, htog, hl₂none]
  rfl

theorem dedupKeepFirst_spec :
    ∀ (xs seen : List String),
      (dedupKeepFirst xs seen).Nodup ∧
      (∀ a, a ∈ dedupKeepFirst xs seen ↔ (a ∈ xs ∧ a ∉ seen)) := by
  intro xs
  induction xs with
  | nil =>
    intro seen
    simp [dedupKeepFirst]
  | cons x rest ih =>
    intro seen
    by_cases hx : x ∈ seen
    · simp only [dedupKeepFirst, if_pos hx]
      refine ⟨(ih seen).1, ?_⟩
      intro a
      rw [(ih seen).2 a]
      constructor
      · rintro ⟨h1, h2⟩
        exact ⟨List.mem_cons_of_mem _ h1, h2⟩
      · rintro ⟨h1, h2⟩
        rcases List.mem_cons.mp h1 with h | h
        · subst h
          exact absurd hx h2
        · exact ⟨h, h2⟩
    · simp only [dedupKeepFirst, if_neg hx]
      constructor
      · apply List.nodup_cons.mpr
        refine ⟨?_, (ih (x :: seen)).1⟩
        intro hmem
        have := ((ih (x :: seen)).2 x).mp hmem
        exact this.2 (List.mem_cons_self _ _)
      · intro a
        rw [List.mem_cons, (ih (x :: seen)).2 a]
        constructor
        · rintro (h | ⟨h1, h2⟩)
          · subst h
            exact ⟨List.mem_cons_self _ _, hx⟩
          · refine ⟨List.mem_cons_of_mem _ h1, fun hs => h2 (List.mem_cons_of_mem _ hs)⟩
        · rintro ⟨h1, h2⟩
          by_cases hax : a = x
          · exact Or.inl hax
          · rcases List.mem_cons.mp h1 with h | h
            · exact absurd h hax
            · refine Or.inr ⟨h, fun hs => ?_⟩
              rcases List.mem_cons.mp hs with h' | h'
              · exact hax h'
              · exact h2 h'

/-! Claim theorems. -/

/-- C7: shuffle correctness.  For every random draw stream and every input
list of game cards, shuffleArray returns a permutation of the input list:
the multiset of elements, and in particular the multiset of instanceIds,
is exactly preserved, so no card is created, destroyed or duplicated.  The
model is pure, so evaluation leaves the input list itself untouched, which
matches the source shuffling a copy of its argument. -/
theorem shuffleArray_perm (rand : Nat → Nat) (l : List GameCard) :
    List.Perm (shuffleArray rand l) l ∧
    List.Perm ((shuffleArray rand l).map (fun gc => gc.instanceId))
      (l.map (fun gc => gc.instanceId)) :=
  ⟨shuffleArray_perm_of rand l, (shuffleArray_perm_of rand l).map _⟩

/-- C8: turn advancement.  With a database handle available, advanceTurn
writes currentTurnIndex equal to (i + 1) mod n whenever the turn order
length n is positive, issues no write at all when n is not positive, and
in particular maps length 3 with current index 2 to a written index 0. -/
theorem advanceTurn_spec (n i : Int) :
    (0 < n → 0 ≤ i → advanceTurn true n i = some ((i + 1) % n)) ∧
    (n ≤ 0 → advanceTurn true n i = none) ∧
    advanceTurn true 3 2 = some 0 := by
  refine ⟨?_, ?_, ?_⟩
  · intro hn hi
    have hn' : ¬n ≤ 0 := by omega
    simp [advanceTurn, hn']
    exact Int.tmod_eq_emod (by omega) (by omega)
  · intro hn
    simp [advanceTurn, hn]
  · decide

/-- C8 witness: the wrap-around instance from the spec, turn order length
3 and current index 2, evaluated through the theorem. -/
theorem advanceTurn_spec_witness :
    (0 : Int) < 3 ∧ (0 : Int) ≤ 2 ∧ advanceTurn true 3 2 = some ((2 + 1) % 3) :=
  ⟨by decide, by decide, (advanceTurn_spec 3 2).1 (by decide) (by decide)⟩

/-- C9: conditional join.  With a database handle available,
addPlayerToTurnOrder writes the turn order with the uid appended exactly
when the room exists and the uid is not already present; when the room
does not exist, or the uid is already present, no write is issued. -/
theorem addPlayerToTurnOrder_spec (turnOrder : List String) (uid : String)
    (roomExists : Bool) :
    (addPlayerToTurnOrder true turnOrder uid roomExists =
        some (turnOrder ++ [uid]) ↔ roomExists = true ∧ uid ∉ turnOrder) ∧
    addPlayerToTurnOrder true turnOrder uid false = none ∧
    (uid ∈ turnOrder → addPlayerToTurnOrder true turnOrder uid roomExists = none) := by
  refine ⟨?_, ?_, ?_⟩
  · constructor
    · intro h
      rcases roomExists with - | -
      · simp [addPlayerToTurnOrder] at h
      · refine ⟨rfl, ?_⟩
        intro hmem
        simp [addPlayerToTurnOrder, hmem] at h
    · rintro ⟨hre, hmem⟩
      subst hre
      simp [addPlayerToTurnOrder, hmem]
  · simp [addPlayerToTurnOrder]
  · intro hmem
    rcases roomExists with - | - <;> simp [addPlayerToTurnOrder, hmem]

/-- C9 witness: joining a two-player room with a fresh uid appends it. -/
theorem addPlayerToTurnOrder_spec_witness :
    ("u3" ∉ ["u1", "u2"]) ∧
    addPlayerToTurnOrder true ["u1", "u2"] "u3" true = some ["u1", "u2", "u3"] := by
  refine ⟨by decide, ?_⟩
  have h := (addPlayerToTurnOrder_spec ["u1", "u2"] "u3" true).1.mpr ⟨rfl, by decide⟩
  simpa using h

/-- C5: hydrate totality.  hydrateZone is a total function over all three
input shapes: an absent zone yields the empty sequence, and for the legacy
array form and the map-plus-order wire form every source wire card yields
exactly one entry preserving its instanceId and both flags.  Every wire
card whose cardId resolves neither in the local deck map nor in the
catalog cache hydrates to an entry carrying the synthesized placeholder
holding that id, whose name is the literal Unknown Card string. -/
theorem hydrateZone_total (localCards cachedById : String → Option ScryfallCard) :
    hydrateZone none localCards cachedById = [] ∧
    (∀ zone, (hydrateZone zone localCards cachedById).map
        (fun gc => (gc.instanceId, gc.tapped, gc.faceDown)) =
      (zoneWires zone).map (fun w => (w.instanceId, w.tapped, w.faceDown))) ∧
    (∀ zone w, w ∈ zoneWires zone → localCards w.cardId = none →
      cachedById w.cardId = none →
      ({ instanceId := w.instanceId, card := createUnknownCard w.cardId,
         tapped := w.tapped, faceDown := w.faceDown } : GameCard) ∈
        hydrateZone zone localCards cachedById) ∧
    (∀ id, (createUnknownCard id).id = id ∧
      (createUnknownCard id).name = "Unknown Card") := by
  refine ⟨rfl, ?_, ?_, ?_⟩
  · intro zone
    unfold hydrateZone
    rw [List.map_map]
    rfl
  · intro zone w hw h1 h2
    have hcard : hydrateWireCard localCards cachedById w =
        { instanceId := w.instanceId, card := createUnknownCard w.cardId,
          tapped := w.tapped, faceDown := w.faceDown } := by
      unfold hydrateWireCard resolveCard
      rw [h1, h2]
    rw [← hcard]
    exact List.mem_map_of_mem _ hw
  · intro id
    exact ⟨rfl, rfl⟩

/-- C5 witness: a wire zone whose single card resolves nowhere hydrates to
the placeholder entry rather than failing. -/
theorem hydrateZone_total_witness :
    ({ instanceId := "i1", card := createUnknownCard "missing",
       tapped := false, faceDown := false } : GameCard) ∈
      hydrateZone
        (some (ZoneInput.wire { cardsById := [("i1", ⟨"i1", "missing", false, false⟩)],
                                order := ["i1"] }))
        (fun _ => none) (fun _ => none) :=
  (hydrateZone_total (fun _ => none) (fun _ => none)).2.2.1
    (some (ZoneInput.wire { cardsById := [("i1", ⟨"i1", "missing", false, false⟩)],
                            order := ["i1"] }))
    ⟨"i1", "missing", false, false⟩ (by decide) rfl rfl

/-- C6: best-effort hydration of corrupt wire data.  For a map-plus-order
wire zone whose entries carry their key as instanceId, hydrateZone returns
exactly the entries whose order id is present in cardsById, in order
positions, silently dropping every orphaned id; each returned entry takes
its flags from the looked-up wire card.  Totality of the Lean function is
the no-throw guarantee. -/
theorem hydrateZone_wire_orphans (z : FirebaseZoneWire)
    (localCards cachedById : String → Option ScryfallCard)
    (hkeys : ∀ p ∈ z.cardsById, (p : String × FirebaseGameCard).2.instanceId = p.1) :
    (hydrateZone (some (ZoneInput.wire z)) localCards cachedById).map
        (fun gc => gc.instanceId) =
      z.order.filter (fun id => (List.lookup id z.cardsById).isSome) ∧
    (∀ gc ∈ hydrateZone (some (ZoneInput.wire z)) localCards cachedById,
      ∃ c, List.lookup gc.instanceId z.cardsById = some c ∧
        gc.tapped = c.tapped ∧ gc.faceDown = c.faceDown) := by
  have main : ∀ o : List String,
      ((o.filterMap (fun id => List.lookup id z.cardsById)).map
        (fun c => c.instanceId)) =
      o.filter (fun id => (List.lookup id z.cardsById).isSome) := by
    intro o
    induction o with
    | nil => rfl
    | cons id rest ih =>
      rcases hl : List.lookup id z.cardsById with - | c
      · simp [List.filterMap_cons, List.filter_cons, hl, ih]
      · have hc : c.instanceId = id := hkeys (id, c) (mem_of_lookup hl)
        simp [List.filterMap_cons, List.filter_cons, hl, ih, hc]
  constructor
  · show ((zoneWires (some (ZoneInput.wire z))).map
        (hydrateWireCard localCards cachedById)).map (fun gc => gc.instanceId) = _
    rw [List.map_map]
    exact main z.order
  · intro gc hgc
    unfold hydrateZone at hgc
    rcases List.mem_map.mp hgc with ⟨w, hw, rfl⟩
    rcases List.mem_filterMap.mp hw with ⟨id, -, hlk⟩
    have hwid : w.instanceId = id := hkeys (id, w) (mem_of_lookup hlk)
    refine ⟨w, ?_, rfl, rfl⟩
    show List.lookup w.instanceId z.cardsById = some w
    rw [hwid]
    exact hlk

/-- C6 witness: an order array holding one live id and one orphaned id
hydrates to exactly the live entry. -/
theorem hydrateZone_wire_orphans_witness :
    (hydrateZone
        (some (ZoneInput.wire { cardsById := [("i1", ⟨"i1", "c1", false, false⟩)],
                                order := ["i1", "ghost"] }))
        (fun _ => none) (fun _ => none)).map (fun gc => gc.instanceId) =
      (["i1", "ghost"] : List String).filter
        (fun id => (List.lookup id
          ([("i1", (⟨"i1", "c1", false, false⟩ : FirebaseGameCard))])).isSome) :=
  (hydrateZone_wire_orphans
    { cardsById := [("i1", ⟨"i1", "c1", false, false⟩)], order := ["i1", "ghost"] }
    (fun _ => none) (fun _ => none) (by decide)).1

/-- Wire zone holding two distinct instances of the same catalog card,
used to exercise collectZoneCardIds on shared cardIds. -/
def twoCopiesZone : FirebaseZoneWire :=
  { cardsById := [("i1", ⟨"i1", "c", false, false⟩), ("i2", ⟨"i2", "c", false, false⟩)]
    order := ["i1", "i2"] }

/-- C10 counterexample: collectZoneCardIds itself does not deduplicate.
On a zone whose two distinct instances share cardId c the function
returns c twice, so its result is not a duplicate-free set of ids. -/
theorem collectZoneCardIds_dup_cex :
    collectZoneCardIds (some (ZoneInput.wire twoCopiesZone)) = ["c", "c"] ∧
    ¬(collectZoneCardIds (some (ZoneInput.wire twoCopiesZone))).Nodup := by
  constructor
  · rfl
  · decide

/-- C10 (amended): collectZoneCardIds returns one cardId per card instance
of the zone, preserving duplicates (an absent zone yields the empty list);
the deduplication happens downstream, in the prefetch step of
prefetchCardsById, which reduces any id list to its duplicate-free set of
non-empty ids before fetching, so a cardId shared by several instances is
fetched only once. -/
theorem collectZoneCardIds_per_instance (arr : List FirebaseGameCard)
    (z : FirebaseZoneWire) (ids : List String) :
    collectZoneCardIds none = [] ∧
    (collectZoneCardIds (some (ZoneInput.legacy arr))).length = arr.length ∧
    (collectZoneCardIds (some (ZoneInput.wire z))).length = z.cardsById.length ∧
    (prefetchUniqueIds ids).Nodup ∧
    (∀ id, id ∈ prefetchUniqueIds ids ↔ (id ∈ ids ∧ id ≠ "")) := by
  refine ⟨rfl, ?_, ?_, ?_, ?_⟩
  · simp [collectZoneCardIds]
  · simp [collectZoneCardIds]
  · exact List.Nodup.filter _ (dedupKeepFirst_spec ids []).1
  · intro id
    unfold prefetchUniqueIds
    rw [List.mem_filter]
    rw [(dedupKeepFirst_spec ids []).2 id]
    simp

/-- Wire zone with one untapped card, the base snapshot of the tap-toggle
scenarios. -/
def oneCardZone : FirebaseZoneWire :=
  { cardsById := [("i1", ⟨"i1", "c1", false, false⟩)], order := ["i1"] }

/-- C3: diff minimality under a tap toggle.  Toggling the tapped flag of
exactly one instance, leaving membership and order unchanged, produces a
diff whose updatedCards is exactly one entry carrying exactly the tapped
field, with empty addedCards and removedCardIds and a null newOrder. -/
theorem computeZoneDiff_tap_toggle (A : FirebaseZoneWire) (k : String)
    (c : FirebaseGameCard) (hA : ZoneWF A)
    (hk : List.lookup k A.cardsById = some c) :
    computeZoneDiff (some A)
        { cardsById := setKey A.cardsById k (toggleTapped c), order := A.order } =
      some { addedCards := [], removedCardIds := [],
             updatedCards := [(k, { tapped := some (!c.tapped), faceDown := none })],
             newOrder := none } := by
  have hadd : diffAdded A.cardsById (setKey A.cardsById k (toggleTapped c)) = [] := by
    apply List.filter_eq_nil_iff.mpr
    intro p hp
    rcases mem_setKey hp with h | h
    · subst h
      simp [hk]
    · have hs := lookup_isSome_of_mem (show (p.1, p.2) ∈ A.cardsById from h)
      rcases Option.isSome_iff_exists.mp hs with ⟨c', hc'⟩
      simp [hc']
  have hrem : diffRemoved A.cardsById (setKey A.cardsById k (toggleTapped c)) = [] := by
    apply List.filter_eq_nil_iff.mpr
    intro k₀ hk₀
    by_cases h0 : k₀ = k
    · simp [lookup_setKey, h0]
    · have hs := (mem_keys_iff_lookup_isSome k₀ A.cardsById).mp hk₀
      rcases Option.isSome_iff_exists.mp hs with ⟨c', hc'⟩
      simp [lookup_setKey, h0, hc']
  have hupd := upd_setKey_toggle A.cardsById hA.2 k c hk
  have hord : ordersDiffer A.order A.order = false :=
    (ordersDiffer_eq_false_iff _ _).mpr rfl
  unfold computeZoneDiff
  simp only [hadd, hrem, hupd, hord]
  simp

/-- C3 witness: toggling the single card of a one-card zone produces the
one-field one-entry diff. -/
theorem computeZoneDiff_tap_toggle_witness :
    computeZoneDiff (some oneCardZone)
        { cardsById := setKey oneCardZone.cardsById "i1"
            (toggleTapped ⟨"i1", "c1", false, false⟩),
          order := oneCardZone.order } =
      some { addedCards := [], removedCardIds := [],
             updatedCards := [("i1", { tapped := some true, faceDown := none })],
             newOrder := none } :=
  computeZoneDiff_tap_toggle oneCardZone "i1" ⟨"i1", "c1", false, false⟩
    (by decide) (by decide)

/-- C4: order-change detection.  A non-null diff carries newOrder equal to
the complete current order exactly when the current order differs from the
previous order in length or in some position (the two lists are unequal),
and carries a null newOrder when the orders coincide; an unequal order
always forces a non-null diff.  Swapping two positions of a well-formed
zone that hold distinct ids, without touching the card Record, yields a
diff whose newOrder is the full swapped order and whose addedCards,
removedCardIds and updatedCards are all empty. -/
theorem computeZoneDiff_order_spec (prev cur : FirebaseZoneWire)
    (A : FirebaseZoneWire) (i j : Nat) (hA : ZoneWF A)
    (hi : i < A.order.length) (hj : j < A.order.length) (hij : i ≠ j)
    (hval : A.order[i]? ≠ A.order[j]?) :
    (prev.order ≠ cur.order →
      ∃ z, computeZoneDiff (some prev) cur = some z ∧ z.newOrder = some cur.order) ∧
    (∀ z, computeZoneDiff (some prev) cur = some z → prev.order = cur.order →
      z.newOrder = none) ∧
    computeZoneDiff (some A)
        { cardsById := A.cardsById, order := listSwap A.order i j } =
      some { addedCards := [], removedCardIds := [], updatedCards := [],
             newOrder := some (listSwap A.order i j) } := by
  refine ⟨?_, ?_, ?_⟩
  · intro hne
    have hdiff : ordersDiffer prev.order cur.order = true :=
      (ordersDiffer_eq_true_iff _ _).mpr hne
    rcases hd : computeZoneDiff (some prev) cur with - | z
    · exfalso
      exact hne (computeZoneDiff_none_parts prev cur hd).2.2.2
    · have hzeq := computeZoneDiff_some_parts prev cur z hd
      subst hzeq
      exact ⟨_, rfl, by simp [hdiff]⟩
  · intro z hd heq
    have hzeq := computeZoneDiff_some_parts prev cur z hd
    subst hzeq
    have hdiff : ordersDiffer prev.order cur.order = false :=
      (ordersDiffer_eq_false_iff _ _).mpr heq
    simp [hdiff]
  · have hswapne : listSwap A.order i j ≠ A.order := by
      intro heq
      have h1 : (listSwap A.order i j)[i]? = A.order[j]? := by
        unfold listSwap
        rw [List.getElem?_eq_getElem hi, List.getElem?_eq_getElem hj]
        rw [List.getElem?_set_ne (Ne.symm hij)]
        simp [List.getElem?_set, hi]
      rw [heq] at h1
      exact hval h1
    have hord : ordersDiffer A.order (listSwap A.order i j) = true :=
      (ordersDiffer_eq_true_iff _ _).mpr (fun h => hswapne h.symm)
    have hadd : diffAdded A.cardsById A.cardsById = [] := by
      apply List.filter_eq_nil_iff.mpr
      intro p hp
      have hs := lookup_isSome_of_mem (show (p.1, p.2) ∈ A.cardsById from hp)
      rcases Option.isSome_iff_exists.mp hs with ⟨c', hc'⟩
      simp [hc']
    have hrem : diffRemoved A.cardsById A.cardsById = [] := by
      apply List.filter_eq_nil_iff.mpr
      intro k₀ hk₀
      have hs := (mem_keys_iff_lookup_isSome k₀ A.cardsById).mp hk₀
      rcases Option.isSome_iff_exists.mp hs with ⟨c', hc'⟩
      simp [hc']
    have hupd : A.cardsById.filterMap (diffUpdF A.cardsById) = [] :=
      List.filterMap_eq_nil_iff.mpr (diffUpdF_self_none A.cardsById hA.2)
    unfold computeZoneDiff
    simp only [hadd, hrem, hupd, hord]
    simp

/-- C4 witness: swapping the two positions of a two-card zone yields the
pure reorder diff through the theorem. -/
theorem computeZoneDiff_order_spec_witness :
    computeZoneDiff (some twoCopiesZone)
        { cardsById := twoCopiesZone.cardsById,
          order := listSwap twoCopiesZone.order 0 1 } =
      some { addedCards := [], removedCardIds := [], updatedCards := [],
             newOrder := some (listSwap twoCopiesZone.order 0 1) } :=
  (computeZoneDiff_order_spec twoCopiesZone twoCopiesZone twoCopiesZone 0 1
    (by decide) (by decide) (by decide) (by decide) (by decide)).2.2

/-- One-card zone whose card references catalog id x. -/
def cardXZone : FirebaseZoneWire :=
  { cardsById := [("i1", ⟨"i1", "x", false, false⟩)], order := ["i1"] }

/-- The same zone with the cardId of the shared instance changed to y. -/
def cardYZone : FirebaseZoneWire :=
  { cardsById := [("i1", ⟨"i1", "y", false, false⟩)], order := ["i1"] }

/-- C1 counterexample: the round trip fails for a pair of zones that both
satisfy the order-permutes-keys invariant but whose shared instance
changed its cardId.  computeZoneDiff compares only the tapped and faceDown
flags, so the diff is null, applying it leaves A unchanged, and the result
is not wire-equal to B. -/
theorem zoneDiff_roundTrip_cex :
    ZoneWF cardXZone ∧ ZoneWF cardYZone ∧
    computeZoneDiff (some cardXZone) cardYZone = none ∧
    ¬wireEq (applyZoneDiffOpt cardXZone (computeZoneDiff (some cardXZone) cardYZone))
      cardYZone := by
  refine ⟨by decide, by decide, by decide, ?_⟩
  intro h
  exact absurd (h.2 "i1") (by decide)

/-- C1 (amended): diff and apply round trip.  For zones A and B whose
order arrays are permutations of their unique cardsById keys, and whose
entries under a common key agree on the two identity fields instanceId
and cardId (the fields computeZoneDiff never compares, and which the
application never changes for an instance), applying to A the point
writes that updatePlayerStateDiff derives from computeZoneDiff of A and B
yields a zone wire-equal to B; and the diff of any well-formed zone
against itself is null. -/
theorem zoneDiff_apply_roundTrip (A B : FirebaseZoneWire) (hA : ZoneWF A)
    (hB : ZoneWF B) (hid : idAgree A.cardsById B.cardsById) :
    wireEq (applyZoneDiffOpt A (computeZoneDiff (some A) B)) B ∧
    (∀ C : FirebaseZoneWire, ZoneWF C → computeZoneDiff (some C) C = none) := by
  refine ⟨?_, fun C hC => computeZoneDiff_self C hC.2⟩
  unfold wireEq
  refine ⟨?_, roundTrip_lookup A B hA.2 hB.2 hid⟩
  rcases hd : computeZoneDiff (some A) B with - | d
  · exact (computeZoneDiff_none_parts A B hd).2.2.2
  · have hdeq := computeZoneDiff_some_parts A B d hd
    subst hdeq
    show (applyZoneDiff A _).order = B.order
    unfold applyZoneDiff
    simp only
    rcases hv : ordersDiffer A.order B.order with - | -
    · have heq := (ordersDiffer_eq_false_iff _ _).mp hv
      simp [hv, heq]
    · simp [hv]

/-- C1 witness: tapping the card of a one-card zone and running the
round trip through the theorem. -/
theorem zoneDiff_apply_roundTrip_witness :
    wireEq
      (applyZoneDiffOpt cardXZone
        (computeZoneDiff (some cardXZone)
          { cardsById := [("i1", ⟨"i1", "x", true, false⟩)], order := ["i1"] }))
      { cardsById := [("i1", ⟨"i1", "x", true, false⟩)], order := ["i1"] } := by
  have hid : idAgree cardXZone.cardsById
      ([("i1", (⟨"i1", "x", true, false⟩ : FirebaseGameCard))]) := by
    intro k a b ha hb
    by_cases hk : k = "i1"
    · subst hk
      rw [show cardXZone.cardsById = [("i1", ⟨"i1", "x", false, false⟩)] from rfl,
        lookup_cons_eq, if_pos rfl] at ha
      rw [lookup_cons_eq, if_pos rfl] at hb
      cases ha
      cases hb
      exact ⟨rfl, rfl⟩
    · rw [show cardXZone.cardsById = [("i1", ⟨"i1", "x", false, false⟩)] from rfl,
        lookup_cons_eq, if_neg hk] at ha
      cases ha
  exact (zoneDiff_apply_roundTrip cardXZone
    { cardsById := [("i1", ⟨"i1", "x", true, false⟩)], order := ["i1"] }
    (by decide) (by decide) hid).1

/-- C2 counterexample: computeZoneDiff does not return null for an absent
previous snapshot with a non-empty current zone (it returns the full-add
diff instead), and it does return null for a present previous snapshot
from which current differs only in the cardId field, even though a field
of current differs from previous. -/
theorem computeZoneDiff_none_cex :
    computeZoneDiff none cardXZone ≠ none ∧
    computeZoneDiff (some cardXZone) cardYZone = none := by
  constructor
  · decide
  · decide

/-- C2 (amended): null-diff characterization.  For a present previous
snapshot with unique keys on both sides, computeZoneDiff returns null
exactly when the order arrays are positionally equal and the two card
Records hold the same key set with every shared entry agreeing on both
tapped and faceDown (differences in other fields, such as cardId, are not
detected).  For an absent previous snapshot the function treats it as an
empty zone: it returns null exactly when current has an empty card Record
and an empty order, and otherwise returns the diff adding everything. -/
theorem computeZoneDiff_none_iff (p cur : FirebaseZoneWire)
    (hp : nodupKeys p.cardsById) (hc : nodupKeys cur.cardsById) :
    (computeZoneDiff (some p) cur = none ↔
      (p.order = cur.order ∧ flagsAgree p.cardsById cur.cardsById)) ∧
    (computeZoneDiff none cur = none ↔ (cur.cardsById = [] ∧ cur.order = [])) := by
  refine ⟨?_, computeZoneDiff_nil_prev_none_iff cur⟩
  constructor
  · intro h
    obtain ⟨hadd, hrem, hupd, hord⟩ := computeZoneDiff_none_parts p cur h
    refine ⟨hord, ?_, ?_⟩
    · intro k
      constructor
      · intro hs
        have hkp : k ∈ p.cardsById.map Prod.fst :=
          (mem_keys_iff_lookup_isSome _ _).mpr hs
        unfold diffRemoved at hrem
        have hcond := List.filter_eq_nil_iff.mp hrem k hkp
        rcases hcur : List.lookup k cur.cardsById with - | b
        · exact absurd (by simp [hcur]) hcond
        · simp [hcur]
      · intro hs
        rcases Option.isSome_iff_exists.mp hs with ⟨b, hb⟩
        have hmem : (k, b) ∈ cur.cardsById := mem_of_lookup hb
        unfold diffAdded at hadd
        have hcond := List.filter_eq_nil_iff.mp hadd (k, b) hmem
        rcases hp' : List.lookup k p.cardsById with - | a
        · exact absurd (by simp [hp']) hcond
        · simp [hp']
    · intro k a b ha hb
      have hmem : (k, b) ∈ cur.cardsById := mem_of_lookup hb
      have hnone : diffUpdF p.cardsById (k, b) = none :=
        List.filterMap_eq_nil_iff.mp hupd (k, b) hmem
      rw [diffUpdF_pair, ha] at hnone
      have hempty : mkCardUpdates a b = emptyUpdate := by
        by_cases hu : mkCardUpdates a b = emptyUpdate
        · exact hu
        · simp [hu] at hnone
      exact (mkCardUpdates_eq_empty_iff a b).mp hempty
  · rintro ⟨hord, hsome, hflags⟩
    apply computeZoneDiff_eq_none_of_parts
    · apply List.filter_eq_nil_iff.mpr
      intro q hq
      have hcs := lookup_isSome_of_mem (show (q.1, q.2) ∈ cur.cardsById from hq)
      have hps := (hsome q.1).mpr hcs
      rcases Option.isSome_iff_exists.mp hps with ⟨a, ha⟩
      simp [ha]
    · apply List.filter_eq_nil_iff.mpr
      intro k hk
      have hps := (mem_keys_iff_lookup_isSome _ _).mp hk
      have hcs := (hsome k).mp hps
      rcases Option.isSome_iff_exists.mp hcs with ⟨b, hb⟩
      simp [hb]
    · apply List.filterMap_eq_nil_iff.mpr
      intro q hq
      have hlc : List.lookup q.1 cur.cardsById = some q.2 :=
        lookup_of_mem_nodup hc hq
      have hps := (hsome q.1).mpr (by simp [hlc])
      rcases Option.isSome_iff_exists.mp hps with ⟨a, ha⟩
      obtain ⟨h1, h2⟩ := hflags q.1 a q.2 ha hlc
      show diffUpdF p.cardsById (q.1, q.2) = none
      rw [diffUpdF_pair, ha]
      simp [(mkCardUpdates_eq_empty_iff a q.2).mpr ⟨h1, h2⟩]
    · exact (ordersDiffer_eq_false_iff _ _).mpr hord

/-- C2 witness: the characterization instantiated at a concrete one-card
zone, null-previous direction. -/
theorem computeZoneDiff_none_iff_witness :
    computeZoneDiff none cardXZone = none ↔
      (cardXZone.cardsById = [] ∧ cardXZone.order = []) :=
  (computeZoneDiff_none_iff cardXZone cardXZone (by decide) (by decide)).2

/-- Three distinct game cards used to exercise the shuffle. -/
def threeCards : List GameCard :=
  [⟨"a", createUnknownCard "a", false, false⟩,
   ⟨"b", createUnknownCard "b", false, false⟩,
   ⟨"c", createUnknownCard "c", false, false⟩]

/-- C7 witness: the permutation property evaluated on a concrete three
card library and a concrete draw stream. -/
theorem shuffleArray_perm_witness :
    List.Perm (shuffleArray (fun _ => 0) threeCards) threeCards ∧
    List.Perm ((shuffleArray (fun _ => 0) threeCards).map (fun gc => gc.instanceId))
      (threeCards.map (fun gc => gc.instanceId)) :=
  shuffleArray_perm (fun _ => 0) threeCards

/-- C10 witness: the per-instance collection and the prefetch
deduplication evaluated on concrete inputs through the theorem. -/
theorem collectZoneCardIds_per_instance_witness :
    (collectZoneCardIds (some (ZoneInput.wire twoCopiesZone))).length =
      twoCopiesZone.cardsById.length ∧
    (prefetchUniqueIds ["c", "c", ""]).Nodup :=
  ⟨(collectZoneCardIds_per_instance [] twoCopiesZone ["c", "c", ""]).2.2.1,
   (collectZoneCardIds_per_instance [] twoCopiesZone ["c", "c", ""]).2.2.2.1⟩

end MtgProxy
